import Mathlib

set_option maxRecDepth 20000

/-!
Shallow embedding of the WaterlooWorks co-op tracker (src/app.py, src/crawler.py).

Strings are modelled as `List Char`.  Python string primitives used by the
code are modelled explicitly on a documented subset of Unicode — all of
ASCII (the keyword table and canonical labels are ASCII) plus the sharp s
ß (U+00DF), whose titlecase mapping expands:
* `str.strip()` removes leading and trailing whitespace; modelled set:
  code points 9, 10, 11, 12, 13, 32 (CPython also strips further
  whitespace such as U+1C–U+1F, U+85, U+A0 and the Unicode spaces);
* `str.lower()` is `Char.toLower` per character (exact on ASCII and on ß;
  CPython also lowers further non-ASCII letters);
* `str.title()` title-cases every character that follows a non-cased
  character and lower-cases every character that follows a cased one,
  where per Unicode SpecialCasing the titlecase of ß is the two-character
  string "Ss" (exact on ASCII and on ß);
* `in` (substring test) is `List.IsInfix`.

The sqlite table `applications` is modelled as a list of rows in rowid order
together with the next AUTOINCREMENT id; `INSERT` appends, `UPDATE ... WHERE
id = ?` rewrites every row carrying that id, and `SELECT ... fetchone()`
returns the first row in rowid order.
-/

abbrev Str := List Char

/-- Whitespace for `str.strip()`: tab, newline, vertical tab, form feed,
carriage return, space. -/
def spaceB (c : Char) : Bool :=
  decide (c.toNat = 32 ∨ c.toNat = 9 ∨ c.toNat = 10 ∨ c.toNat = 13 ∨
    c.toNat = 11 ∨ c.toNat = 12)

/-- ASCII letter test, the "cased character" notion used by `str.title()`. -/
def alphaB (c : Char) : Bool :=
  decide ((65 ≤ c.toNat ∧ c.toNat ≤ 90) ∨ (97 ≤ c.toNat ∧ c.toNat ≤ 122))

/-- Python `raw.strip()`. -/
def strip (s : Str) : Str := List.rdropWhile spaceB (List.dropWhile spaceB s)

/-- Python `text.lower()` (ASCII model). -/
def lower (s : Str) : Str := s.map Char.toLower

/-- The "cased character" test used by `str.title()` (CPython
`_PyUnicode_IsCased`), on the modelled subset: the ASCII letters and the
sharp s ß (U+00DF).  CPython treats further non-ASCII letters as cased;
they are outside the modelled subset. -/
def casedB (c : Char) : Bool := alphaB c || decide (c.toNat = 223)

/-- Full lowercase mapping of one character as used inside `str.title()`;
on the modelled subset every lowercase image is a single character
(ß already lower-cases to itself). -/
def lowerChar (c : Char) : Str := [Char.toLower c]

/-- Full titlecase mapping of one character as used inside `str.title()`
(CPython `_PyUnicode_ToTitleFull`): per Unicode SpecialCasing the sharp s
ß expands to the two characters "Ss"; ASCII letters map to their
uppercase.  Other expanding mappings (e.g. the ﬁ ligature) exist in
CPython but are outside the modelled subset. -/
def titleChar (c : Char) : Str :=
  if c.toNat = 223 then "Ss".data else [Char.toUpper c]

/-- One pass of Python `text.title()` (CPython `do_title`): every character
is title-cased when the previous character was not cased and lower-cased
when it was; the `Bool` records whether the previous character was cased.
A mapping may expand one character to several ("ß" titlecases to "Ss"). -/
def titleAux : Bool → Str → Str
  | _, [] => []
  | prevCased, c :: rest =>
    (if prevCased then lowerChar c else titleChar c) ++ titleAux (casedB c) rest

/-- Python `text.title()`. -/
def title (s : Str) : Str := titleAux false s

/-- Python `kw in s` for strings: substring test. -/
def substrB (kw s : Str) : Bool := decide (List.IsInfix kw s)

/-- The ordered keyword table `STATUS_KEYWORDS` of src/app.py (dicts preserve
insertion order, so matching tries the families in this order). -/
def STATUS_KEYWORDS : List (Str × List Str) :=
  [("rejected".data,
    ["unfilled".data, "filled".data, "cancelled".data, "canceled".data,
     "closed".data, "not selected".data, "rejected".data, "unsuccessful".data,
     "declined".data, "did not proceed".data]),
   ("offer".data, ["offer".data, "accepted".data, "accept".data]),
   ("onsite".data, ["onsite".data, "final round".data]),
   ("interview".data,
    ["interview".data, "phone screen".data, "screen".data, "assessment".data]),
   ("ranked".data, ["ranked".data, "alternate".data, "shortlist".data, "pool".data]),
   ("applied".data,
    ["applied".data, "submitted".data, "received".data, "under review".data,
     "in progress".data])]

/-- The literal dict mapping a family key to its canonical label inside
`normalize_status`. -/
def canonicalLabel (target : Str) : Str :=
  if target = "rejected".data then ("Rejected".data)
  else if target = "offer".data then ("Offer".data)
  else if target = "onsite".data then ("Onsite".data)
  else if target = "interview".data then ("Interview".data)
  else if target = "ranked".data then ("Ranked".data)
  else ("Applied".data)

/-- The `for target, keywords in STATUS_KEYWORDS.items()` loop: return the
first family one of whose keywords occurs in `lowered`. -/
def firstMatch : List (Str × List Str) → Str → Option Str
  | [], _ => none
  | (target, keywords) :: rest, lowered =>
    if keywords.any (fun kw => substrB kw lowered) then some target
    else firstMatch rest lowered

/-- `normalize_status` of src/app.py. -/
def normalize_status (raw_status : Str) : Str :=
  let text := strip raw_status
  let lowered := lower text
  match firstMatch STATUS_KEYWORDS lowered with
  | some target => canonicalLabel target
  | none => if text = [] then ("Applied".data) else title text

/-- A row of the sqlite table `applications` (schema in `init_db`). -/
structure ApplicationRow where
  id : Nat
  company : Str
  role : Str
  location : Str
  status : Str
  applied_date : Str
  follow_up_date : Option Str
  source : Str
  notes : Str
  url : Str
deriving DecidableEq

/-- The dict of application fields passed to `upsert_application` /
`data_to_tuple` (company, role, location, status, applied_date,
follow_up_date, source, notes, url). -/
structure AppData where
  company : Str
  role : Str
  location : Str
  status : Str
  applied_date : Str
  follow_up_date : Option Str
  source : Str
  notes : Str
  url : Str
deriving DecidableEq

/-- The `applications` table: rows in rowid order plus the next
AUTOINCREMENT id. -/
structure Store where
  rows : List ApplicationRow
  nextId : Nat
deriving DecidableEq

/-- Build the inserted row from an id and the VALUES tuple
(`data_to_tuple`). -/
def rowOfData (i : Nat) (d : AppData) : ApplicationRow :=
  ⟨i, d.company, d.role, d.location, d.status, d.applied_date,
   d.follow_up_date, d.source, d.notes, d.url⟩

/-- The `WHERE company = ? AND role = ?` test of `upsert_application`. -/
def keyMatches (c ro : Str) (r : ApplicationRow) : Bool :=
  r.company == c && r.role == ro

/-- The `UPDATE applications SET ... WHERE id = ?` row rewrite: every column
is overwritten with the candidate values, the id is kept. -/
def updateRow (d : AppData) (r : ApplicationRow) : ApplicationRow :=
  ⟨r.id, d.company, d.role, d.location, d.status, d.applied_date,
   d.follow_up_date, d.source, d.notes, d.url⟩

/-- `upsert_application` of src/app.py: normalize the status, look up the
first row whose (company, role) equal the candidate's, and either rewrite
that row in place or append a fresh row. -/
def upsert_application (s : Store) (data : AppData) : Store :=
  let normalized : AppData := { data with status := normalize_status data.status }
  match s.rows.find? (keyMatches normalized.company normalized.role) with
  | some existing =>
    ⟨s.rows.map (fun r => if r.id = existing.id then updateRow normalized r else r),
     s.nextId⟩
  | none => ⟨s.rows ++ [rowOfData s.nextId normalized], s.nextId + 1⟩

/-- The raw values read from the manual add/edit form (absent fields are the
empty string). -/
structure FormData where
  company : Str
  role : Str
  location : Str
  status : Str
  applied_date : Str
  follow_up_date : Str
  source : Str
  notes : Str
  url : Str
deriving DecidableEq

/-- `form_to_application` of src/app.py; `today` is the current date
(`date.today().isoformat()`). -/
def form_to_application (today : Str) (f : FormData) : AppData :=
  let applied := if f.applied_date = [] then today else f.applied_date
  let follow_up := if f.follow_up_date = [] then none else some f.follow_up_date
  { company := strip f.company, role := strip f.role, location := strip f.location,
    status := normalize_status f.status, applied_date := applied,
    follow_up_date := follow_up, source := strip f.source, notes := strip f.notes,
    url := strip f.url }

/-- The POST branch of the `add_application` route: an unconditional
`INSERT` of the form data. -/
def add_application (s : Store) (today : Str) (f : FormData) : Store :=
  ⟨s.rows ++ [rowOfData s.nextId (form_to_application today f)], s.nextId + 1⟩

/-- One extracted table row in `crawl_and_sync` (src/crawler.py): the four
`extract_text` results, already stripped by `extract_text`. -/
structure RawRow where
  company : Str
  role : Str
  status_raw : Str
  location : Str
deriving DecidableEq

/-- The dict `crawl_and_sync` builds for `upsert_application` from one
extracted row. -/
def candidateOf (today source_label target_url : Str) (row : RawRow) : AppData :=
  { company := row.company, role := row.role, location := row.location,
    status := normalize_status row.status_raw,
    applied_date := today, follow_up_date := none, source := source_label,
    notes := "Imported via crawler from ".data ++ target_url,
    url := target_url }

/-- The presence check `if not (company and role and status_raw): continue`. -/
def rowPresent (row : RawRow) : Bool :=
  !row.company.isEmpty && !row.role.isEmpty && !row.status_raw.isEmpty

/-- The row loop of `crawl_and_sync`: upsert each row that passes the
presence check and count it; the pair is (final store, `imported`), and
`main` prints the returned count. -/
def crawl_and_sync (s : Store) (rows : List RawRow)
    (today source_label target_url : Str) : Store × Nat :=
  rows.foldl
    (fun acc row =>
      if rowPresent row then
        (upsert_application acc.1 (candidateOf today source_label target_url row),
         acc.2 + 1)
      else acc)
    (s, 0)

/-- `fetch_stage_breakdown` of src/app.py:
`SELECT status, COUNT(*) GROUP BY status ORDER BY count DESC`, modelled as
one (status, count) pair per distinct status, sorted by count descending. -/
def fetch_stage_breakdown (s : Store) : List (Str × Nat) :=
  let statuses := s.rows.map (fun r => r.status)
  let groups := statuses.dedup.map (fun st => (st, statuses.count st))
  groups.mergeSort (fun a b => decide (b.2 ≤ a.2))

theorem toNat_ofNat_lt {m : Nat} (h : m < 55296) : (Char.ofNat m).toNat = m := by
  have hv : m.isValidChar := Or.inl h
  unfold Char.ofNat
  rw [dif_pos hv]
  rfl

theorem char_eq_of_toNat_eq {c d : Char} (h : c.toNat = d.toNat) : c = d :=
  Char.ext (UInt32.toNat.inj h)

theorem toLower_eq (c : Char) :
    Char.toLower c =
      if 65 ≤ c.toNat ∧ c.toNat ≤ 90 then Char.ofNat (c.toNat + 32) else c := rfl

theorem toUpper_eq (c : Char) :
    Char.toUpper c =
      if 97 ≤ c.toNat ∧ c.toNat ≤ 122 then Char.ofNat (c.toNat - 32) else c := rfl

theorem toLower_toNat (c : Char) :
    (Char.toLower c).toNat =
      if 65 ≤ c.toNat ∧ c.toNat ≤ 90 then c.toNat + 32 else c.toNat := by
  rw [toLower_eq]
  split
  case isTrue h => exact toNat_ofNat_lt (by omega)
  case isFalse h => rfl

theorem toUpper_toNat (c : Char) :
    (Char.toUpper c).toNat =
      if 97 ≤ c.toNat ∧ c.toNat ≤ 122 then c.toNat - 32 else c.toNat := by
  rw [toUpper_eq]
  split
  case isTrue h => exact toNat_ofNat_lt (by omega)
  case isFalse h => rfl

theorem toLower_toLower (c : Char) :
    Char.toLower (Char.toLower c) = Char.toLower c := by
  apply char_eq_of_toNat_eq
  simp only [toLower_toNat]
  split_ifs <;> omega

theorem toLower_toUpper (c : Char) :
    Char.toLower (Char.toUpper c) = Char.toLower c := by
  apply char_eq_of_toNat_eq
  simp only [toLower_toNat, toUpper_toNat]
  split_ifs <;> omega

theorem toUpper_toUpper (c : Char) :
    Char.toUpper (Char.toUpper c) = Char.toUpper c := by
  apply char_eq_of_toNat_eq
  simp only [toUpper_toNat]
  split_ifs <;> omega

theorem alphaB_toLower (c : Char) : alphaB (Char.toLower c) = alphaB c := by
  rw [alphaB, alphaB, decide_eq_decide, toLower_toNat]
  split_ifs <;> omega

theorem alphaB_toUpper (c : Char) : alphaB (Char.toUpper c) = alphaB c := by
  rw [alphaB, alphaB, decide_eq_decide, toUpper_toNat]
  split_ifs <;> omega

theorem spaceB_toLower (c : Char) : spaceB (Char.toLower c) = spaceB c := by
  rw [spaceB, spaceB, decide_eq_decide, toLower_toNat]
  split_ifs <;> omega

theorem spaceB_toUpper (c : Char) : spaceB (Char.toUpper c) = spaceB c := by
  rw [spaceB, spaceB, decide_eq_decide, toUpper_toNat]
  split_ifs <;> omega

theorem lower_cons (c : Char) (t : Str) : lower (c :: t) = Char.toLower c :: lower t := rfl

theorem titleAux_cons (b : Bool) (c : Char) (rest : Str) :
    titleAux b (c :: rest) =
      (if b then lowerChar c else titleChar c) ++ titleAux (casedB c) rest := rfl

theorem titleChar_ascii {c : Char} (h : c.toNat < 128) :
    titleChar c = [Char.toUpper c] := by
  rw [titleChar, if_neg (by omega)]

theorem toLower_toNat_lt {c : Char} (h : c.toNat < 128) :
    (Char.toLower c).toNat < 128 := by
  rw [toLower_toNat]
  split_ifs <;> omega

theorem toUpper_toNat_lt {c : Char} (h : c.toNat < 128) :
    (Char.toUpper c).toNat < 128 := by
  rw [toUpper_toNat]
  split_ifs <;> omega

theorem casedB_toLower {c : Char} (h : c.toNat < 128) :
    casedB (Char.toLower c) = casedB c := by
  have h2 := toLower_toNat_lt h
  rw [casedB, casedB, alphaB_toLower,
    decide_eq_false (by omega : ¬(Char.toLower c).toNat = 223),
    decide_eq_false (by omega : ¬c.toNat = 223)]

theorem casedB_toUpper {c : Char} (h : c.toNat < 128) :
    casedB (Char.toUpper c) = casedB c := by
  have h2 := toUpper_toNat_lt h
  rw [casedB, casedB, alphaB_toUpper,
    decide_eq_false (by omega : ¬(Char.toUpper c).toNat = 223),
    decide_eq_false (by omega : ¬c.toNat = 223)]

theorem titleAux_length_pos (b : Bool) (c : Char) (rest : Str) :
    0 < (titleAux b (c :: rest)).length := by
  rw [titleAux_cons, List.length_append]
  have hm : 0 < (if b = true then lowerChar c else titleChar c).length := by
    cases b
    · rw [if_neg (by simp), titleChar]
      split
      · decide
      · simp
    · rw [if_pos rfl, lowerChar]
      simp
  omega

theorem spaceB_map_titleAux (b : Bool) (s : Str) (hs : ∀ c ∈ s, c.toNat < 128) :
    (titleAux b s).map spaceB = s.map spaceB := by
  induction s generalizing b with
  | nil => rfl
  | cons c rest ih =>
    have hc : c.toNat < 128 := hs c (List.mem_cons_self _ _)
    have hrest : ∀ c2 ∈ rest, c2.toNat < 128 :=
      fun c2 h2 => hs c2 (List.mem_cons_of_mem _ h2)
    rw [titleAux_cons]
    cases b
    · rw [if_neg (by simp), titleChar_ascii hc]
      show spaceB (Char.toUpper c) :: (titleAux (casedB c) rest).map spaceB =
        spaceB c :: rest.map spaceB
      rw [spaceB_toUpper, ih _ hrest]
    · rw [if_pos rfl, lowerChar]
      show spaceB (Char.toLower c) :: (titleAux (casedB c) rest).map spaceB =
        spaceB c :: rest.map spaceB
      rw [spaceB_toLower, ih _ hrest]

theorem lower_titleAux (b : Bool) (s : Str) (hs : ∀ c ∈ s, c.toNat < 128) :
    lower (titleAux b s) = lower s := by
  induction s generalizing b with
  | nil => rfl
  | cons c rest ih =>
    have hc : c.toNat < 128 := hs c (List.mem_cons_self _ _)
    have hrest : ∀ c2 ∈ rest, c2.toNat < 128 :=
      fun c2 h2 => hs c2 (List.mem_cons_of_mem _ h2)
    rw [titleAux_cons]
    cases b
    · rw [if_neg (by simp), titleChar_ascii hc]
      show Char.toLower (Char.toUpper c) :: lower (titleAux (casedB c) rest) =
        Char.toLower c :: lower rest
      rw [toLower_toUpper, ih _ hrest]
    · rw [if_pos rfl, lowerChar]
      show Char.toLower (Char.toLower c) :: lower (titleAux (casedB c) rest) =
        Char.toLower c :: lower rest
      rw [toLower_toLower, ih _ hrest]

theorem titleAux_titleAux (b : Bool) (s : Str) (hs : ∀ c ∈ s, c.toNat < 128) :
    titleAux b (titleAux b s) = titleAux b s := by
  induction s generalizing b with
  | nil => rfl
  | cons c rest ih =>
    have hc : c.toNat < 128 := hs c (List.mem_cons_self _ _)
    have hrest : ∀ c2 ∈ rest, c2.toNat < 128 :=
      fun c2 h2 => hs c2 (List.mem_cons_of_mem _ h2)
    cases b
    · rw [titleAux_cons, if_neg (by simp), titleChar_ascii hc]
      show titleAux false (Char.toUpper c :: titleAux (casedB c) rest) =
        Char.toUpper c :: titleAux (casedB c) rest
      rw [titleAux_cons, if_neg (by simp), titleChar_ascii (toUpper_toNat_lt hc),
        toUpper_toUpper, casedB_toUpper hc, ih _ hrest]
      rfl
    · rw [titleAux_cons, if_pos rfl, lowerChar]
      show titleAux true (Char.toLower c :: titleAux (casedB c) rest) =
        Char.toLower c :: titleAux (casedB c) rest
      rw [titleAux_cons, if_pos rfl, lowerChar, toLower_toLower,
        casedB_toLower hc, ih _ hrest]
      rfl

theorem dropWhile_fixed_head {p : Char → Bool} {c : Char} {t : Str}
    (h : List.dropWhile p (c :: t) = c :: t) : p c = false := by
  by_cases hc : p c = true
  · exfalso
    rw [List.dropWhile_cons, if_pos hc] at h
    have hlen := congrArg List.length h
    have hle : (List.dropWhile p t).length ≤ t.length :=
      (List.dropWhile_sublist _).length_le
    simp at hlen
    omega
  · simpa using hc

theorem dropWhile_strip (s : Str) :
    List.dropWhile spaceB (strip s) = strip s := by
  cases h : strip s with
  | nil => rfl
  | cons c t =>
    have hpre : strip s <+: List.dropWhile spaceB s := List.rdropWhile_prefix _ _
    rw [h] at hpre
    rcases hpre with ⟨r, hr⟩
    have heq : List.dropWhile spaceB s = c :: (t ++ r) := by rw [← hr]; rfl
    have hfix : List.dropWhile spaceB (c :: (t ++ r)) = c :: (t ++ r) := by
      rw [← heq]
      exact List.dropWhile_idempotent spaceB s
    have hc : spaceB c = false := dropWhile_fixed_head hfix
    rw [List.dropWhile_cons, if_neg (by simp [hc])]

theorem rdropWhile_strip (s : Str) :
    List.rdropWhile spaceB (strip s) = strip s :=
  List.rdropWhile_idempotent spaceB (List.dropWhile spaceB s)

theorem strip_eq_self_of {t : Str} (h1 : List.dropWhile spaceB t = t)
    (h2 : List.rdropWhile spaceB t = t) : strip t = t := by
  rw [strip, h1, h2]

theorem strip_strip (s : Str) : strip (strip s) = strip s :=
  strip_eq_self_of (dropWhile_strip s) (rdropWhile_strip s)

theorem dropWhile_eq_self_transport {s t : Str}
    (hpat : s.map spaceB = t.map spaceB)
    (h : List.dropWhile spaceB s = s) : List.dropWhile spaceB t = t := by
  cases s with
  | nil =>
    cases t with
    | nil => rfl
    | cons c r => simp at hpat
  | cons a s2 =>
    cases t with
    | nil => rfl
    | cons c r =>
      have ha : spaceB a = false := dropWhile_fixed_head h
      simp only [List.map_cons, List.cons.injEq] at hpat
      have hc : spaceB c = false := by rw [← hpat.1]; exact ha
      rw [List.dropWhile_cons, if_neg (by simp [hc])]

theorem rdropWhile_eq_self_transport {s t : Str}
    (hpat : s.map spaceB = t.map spaceB)
    (h : List.rdropWhile spaceB s = s) : List.rdropWhile spaceB t = t := by
  have hpat2 : s.reverse.map spaceB = t.reverse.map spaceB := by
    rw [List.map_reverse, List.map_reverse, hpat]
  have h2 : List.dropWhile spaceB s.reverse = s.reverse := by
    rw [List.rdropWhile] at h
    have h4 := congrArg List.reverse h
    rwa [List.reverse_reverse] at h4
  have h3 := dropWhile_eq_self_transport hpat2 h2
  rw [List.rdropWhile, h3, List.reverse_reverse]

theorem strip_subset (s : Str) : ∀ c ∈ strip s, c ∈ s := by
  intro c hc
  have h1 : strip s <+: List.dropWhile spaceB s := List.rdropWhile_prefix _ _
  have h2 : List.dropWhile spaceB s <:+ s := List.dropWhile_suffix _
  exact h2.sublist.subset (h1.sublist.subset hc)

theorem strip_title_strip (s : Str) (hs : ∀ c ∈ strip s, c.toNat < 128) :
    strip (title (strip s)) = title (strip s) := by
  have hpat : (strip s).map spaceB = (title (strip s)).map spaceB :=
    (spaceB_map_titleAux false (strip s) hs).symm
  exact strip_eq_self_of
    (dropWhile_eq_self_transport hpat (dropWhile_strip s))
    (rdropWhile_eq_self_transport hpat (rdropWhile_strip s))

theorem firstMatch_eq_none_iff (L : List (Str × List Str)) (lowered : Str) :
    firstMatch L lowered = none ↔
      ∀ p ∈ L, ∀ kw ∈ p.2, ¬ List.IsInfix kw lowered := by
  induction L with
  | nil => simp [firstMatch]
  | cons hd tl ih =>
    obtain ⟨target, keywords⟩ := hd
    simp only [firstMatch]
    split
    case isTrue h =>
      apply iff_of_false (by simp)
      intro hall
      rcases List.any_eq_true.mp h with ⟨kw, hkw, hsub⟩
      exact hall (target, keywords) (List.mem_cons_self _ _) kw hkw
        (of_decide_eq_true hsub)
    case isFalse h =>
      rw [ih]
      have hks : ∀ kw ∈ keywords, ¬ List.IsInfix kw lowered := by
        intro kw hkw hinf
        exact h (List.any_eq_true.mpr ⟨kw, hkw, decide_eq_true hinf⟩)
      constructor
      · intro hall p hp
        rcases List.mem_cons.mp hp with rfl | hp2
        · exact hks
        · exact hall p hp2
      · intro hall p hp
        exact hall p (List.mem_cons_of_mem _ hp)

theorem firstMatch_mem {L : List (Str × List Str)} {lowered t : Str}
    (h : firstMatch L lowered = some t) : t ∈ L.map Prod.fst := by
  induction L with
  | nil => simp [firstMatch] at h
  | cons hd tl ih =>
    obtain ⟨target, keywords⟩ := hd
    simp only [firstMatch] at h
    split at h
    · rw [Option.some.injEq] at h
      simp [← h]
    · simpa using Or.inr (ih h)

theorem lower_title (s : Str) (hs : ∀ c ∈ s, c.toNat < 128) :
    lower (title s) = lower s := lower_titleAux false s hs

theorem title_title (s : Str) (hs : ∀ c ∈ s, c.toNat < 128) :
    title (title s) = title s := titleAux_titleAux false s hs

theorem title_ne_nil {s : Str} (h : s ≠ []) : title s ≠ [] := by
  cases s with
  | nil => exact absurd rfl h
  | cons c rest => exact List.length_pos.mp (titleAux_length_pos false c rest)

/-- Claim C1: any raw status whose trimmed, lower-cased form contains a
keyword of the "rejected" family normalizes to "Rejected", whatever else the
string contains, because that family is matched first. -/
theorem normalize_status_rejected_priority (x : Str)
    (h : ∃ p ∈ STATUS_KEYWORDS, p.1 = "rejected".data ∧
      ∃ kw ∈ p.2, List.IsInfix kw (lower (strip x))) :
    normalize_status x = "Rejected".data := by
  rcases h with ⟨p, hp, hfst, kw, hkw, hinf⟩
  simp only [STATUS_KEYWORDS, List.mem_cons, List.not_mem_nil, or_false] at hp
  rcases hp with rfl | rfl | rfl | rfl | rfl | rfl
  case _ =>
    have hany : (List.any
        ["unfilled".data, "filled".data, "cancelled".data, "canceled".data,
         "closed".data, "not selected".data, "rejected".data, "unsuccessful".data,
         "declined".data, "did not proceed".data]
        (fun kw => substrB kw (lower (strip x)))) = true :=
      List.any_eq_true.mpr ⟨kw, hkw, decide_eq_true hinf⟩
    have hfm : firstMatch STATUS_KEYWORDS (lower (strip x)) = some ("rejected".data) := by
      simp only [STATUS_KEYWORDS, firstMatch]
      rw [if_pos hany]
    simp only [normalize_status]
    rw [hfm]
    rfl
  all_goals exact absurd hfst (by decide)

theorem normalize_status_rejected_priority_witness :
    (∃ p ∈ STATUS_KEYWORDS, p.1 = "rejected".data ∧
      ∃ kw ∈ p.2,
        List.IsInfix kw (lower (strip ("Phone Screen done - REJECTED (offer)".data)))) ∧
    normalize_status ("Phone Screen done - REJECTED (offer)".data) = "Rejected".data :=
  ⟨by decide, normalize_status_rejected_priority _ (by decide)⟩

/-- Claim C4: if no keyword of any family occurs in the trimmed lower-cased
input, `normalize_status` returns the trimmed input in title case, or the
literal "Applied" when the trimmed input is empty. -/
theorem normalize_status_fallback (x : Str)
    (h : ∀ p ∈ STATUS_KEYWORDS, ∀ kw ∈ p.2, ¬ List.IsInfix kw (lower (strip x))) :
    normalize_status x = if strip x = [] then ("Applied".data) else title (strip x) := by
  have hnone : firstMatch STATUS_KEYWORDS (lower (strip x)) = none :=
    (firstMatch_eq_none_iff _ _).mpr h
  simp only [normalize_status]
  rw [hnone]

theorem normalize_status_fallback_witness :
    ((∀ p ∈ STATUS_KEYWORDS, ∀ kw ∈ p.2,
        ¬ List.IsInfix kw (lower (strip ("  some Custom labEl  ".data)))) ∧
      normalize_status ("  some Custom labEl  ".data) =
        if strip ("  some Custom labEl  ".data) = [] then ("Applied".data)
        else title (strip ("  some Custom labEl  ".data))) ∧
    ((∀ p ∈ STATUS_KEYWORDS, ∀ kw ∈ p.2,
        ¬ List.IsInfix kw (lower (strip ("   ".data)))) ∧
      normalize_status ("   ".data) =
        if strip ("   ".data) = [] then ("Applied".data) else title (strip ("   ".data))) :=
  ⟨⟨by decide, normalize_status_fallback _ (by decide)⟩,
   ⟨by decide, normalize_status_fallback _ (by decide)⟩⟩

/-- Claim C5: each canonical label is a fixed point of `normalize_status`:
no canonical label re-matches an earlier-priority keyword family. -/
theorem normalize_status_canonical_fixed :
    normalize_status ("Applied".data) = "Applied".data ∧
    normalize_status ("Interview".data) = "Interview".data ∧
    normalize_status ("Onsite".data) = "Onsite".data ∧
    normalize_status ("Offer".data) = "Offer".data ∧
    normalize_status ("Ranked".data) = "Ranked".data ∧
    normalize_status ("Rejected".data) = "Rejected".data := by
  refine ⟨by decide, by decide, by decide, by decide, by decide, by decide⟩

/-- Claim C9 counterexample: `normalize_status` is not idempotent on every
input.  Title-casing expands the sharp s ß to "Ss" (Unicode SpecialCasing,
as CPython does), so the keyword-free input "ßcreen" falls back to the
title-cased "Sscreen" — whose lower-casing contains the keyword "screen"
and therefore normalizes to "Interview" on a second pass. -/
theorem normalize_status_not_idempotent :
    normalize_status (normalize_status ("ßcreen".data)) ≠
      normalize_status ("ßcreen".data) ∧
    normalize_status ("ßcreen".data) = "Sscreen".data ∧
    normalize_status (normalize_status ("ßcreen".data)) = "Interview".data := by
  refine ⟨by decide, by decide, by decide⟩

/-- Claim C9 (amended): `normalize_status` is idempotent on every input all
of whose characters are ASCII (code point < 128): canonical labels map to
themselves, and on ASCII text the title-cased fallback is stripped,
keyword-free and title-cased already, so a second pass leaves it
unchanged.  (On non-ASCII input an expanding titlecase mapping such as
ß → "Ss" can create a keyword match on the second pass.) -/
theorem normalize_status_idempotent (x : Str) (hx : ∀ c ∈ x, c.toNat < 128) :
    normalize_status (normalize_status x) = normalize_status x := by
  cases hfm : firstMatch STATUS_KEYWORDS (lower (strip x)) with
  | some target =>
    have hmem := firstMatch_mem hfm
    have hx2 : normalize_status x = canonicalLabel target := by
      simp only [normalize_status]
      rw [hfm]
    rw [hx2]
    simp only [STATUS_KEYWORDS, List.map_cons, List.map_nil, List.mem_cons,
      List.not_mem_nil, or_false] at hmem
    rcases hmem with rfl | rfl | rfl | rfl | rfl | rfl <;> decide
  | none =>
    have hascii : ∀ c ∈ strip x, c.toNat < 128 :=
      fun c hc => hx c (strip_subset x c hc)
    have hx2 : normalize_status x =
        if strip x = [] then ("Applied".data) else title (strip x) := by
      simp only [normalize_status]
      rw [hfm]
    rw [hx2]
    by_cases hnil : strip x = []
    · rw [if_pos hnil]
      decide
    · rw [if_neg hnil]
      have hstrip : strip (title (strip x)) = title (strip x) :=
        strip_title_strip x hascii
      have hne : title (strip x) ≠ [] := title_ne_nil hnil
      simp only [normalize_status]
      rw [hstrip, lower_title _ hascii, hfm, if_neg hne, title_title _ hascii]

theorem normalize_status_idempotent_witness :
    (∀ c ∈ ("  Position Unfilled ".data : Str), c.toNat < 128) ∧
    normalize_status (normalize_status ("  Position Unfilled ".data)) =
      normalize_status ("  Position Unfilled ".data) :=
  ⟨by decide, normalize_status_idempotent _ (by decide)⟩

theorem upsert_eq (s : Store) (d : AppData) :
    upsert_application s d =
      match s.rows.find? (keyMatches d.company d.role) with
      | some existing =>
        ⟨s.rows.map (fun r => if r.id = existing.id then
            updateRow { d with status := normalize_status d.status } r else r),
         s.nextId⟩
      | none =>
        ⟨s.rows ++ [rowOfData s.nextId { d with status := normalize_status d.status }],
         s.nextId + 1⟩ := rfl

/-- Claim C2: if no stored row has the candidate's (company, role),
`upsert_application` appends exactly one row; if one exists it rewrites that
row under its existing id and the row count and id sequence are unchanged. -/
theorem upsert_application_count (s : Store) (d : AppData) :
    ((∀ r ∈ s.rows, ¬(r.company = d.company ∧ r.role = d.role)) →
      (upsert_application s d).rows.length = s.rows.length + 1) ∧
    ((∃ r ∈ s.rows, r.company = d.company ∧ r.role = d.role) →
      (upsert_application s d).rows.length = s.rows.length ∧
      (upsert_application s d).rows.map (fun r => r.id) = s.rows.map (fun r => r.id)) := by
  constructor
  · intro hno
    have hfind : s.rows.find? (keyMatches d.company d.role) = none := by
      rw [List.find?_eq_none]
      intro r hr hkm
      simp only [keyMatches, Bool.and_eq_true, beq_iff_eq] at hkm
      exact hno r hr hkm
    rw [upsert_eq, hfind]
    simp
  · intro hex
    have hsome : ∃ e, s.rows.find? (keyMatches d.company d.role) = some e := by
      rcases hex with ⟨r0, hr0, hkey⟩
      apply Option.isSome_iff_exists.mp
      apply List.find?_isSome.mpr
      exact ⟨r0, hr0, by simp [keyMatches, hkey.1, hkey.2]⟩
    rcases hsome with ⟨e, he⟩
    rw [upsert_eq, he]
    constructor
    · simp
    · rw [List.map_map]
      apply List.map_congr_left
      intro r hr
      show (if r.id = e.id then
          updateRow { d with status := normalize_status d.status } r else r).id = r.id
      split <;> rfl

theorem upsert_application_count_witness :
    (upsert_application ⟨[], 1⟩
        ⟨"acme".data, "dev".data, [], "applied".data, "2024-01-01".data,
         none, [], [], []⟩).rows.length =
      (⟨[], 1⟩ : Store).rows.length + 1 ∧
    ((upsert_application
        ⟨[⟨1, "acme".data, "dev".data, [], "Applied".data, "2024-01-01".data,
           none, [], [], []⟩], 2⟩
        ⟨"acme".data, "dev".data, [], "offer".data, "2024-02-02".data,
         none, [], "n".data, []⟩).rows.length =
      (⟨[⟨1, "acme".data, "dev".data, [], "Applied".data, "2024-01-01".data,
          none, [], [], []⟩], 2⟩ : Store).rows.length ∧
     (upsert_application
        ⟨[⟨1, "acme".data, "dev".data, [], "Applied".data, "2024-01-01".data,
           none, [], [], []⟩], 2⟩
        ⟨"acme".data, "dev".data, [], "offer".data, "2024-02-02".data,
         none, [], "n".data, []⟩).rows.map (fun r => r.id) =
      (⟨[⟨1, "acme".data, "dev".data, [], "Applied".data, "2024-01-01".data,
          none, [], [], []⟩], 2⟩ : Store).rows.map (fun r => r.id)) :=
  ⟨(upsert_application_count ⟨[], 1⟩ _).1 (by decide),
   (upsert_application_count _ _).2 ⟨_, List.mem_cons_self _ _, by decide⟩⟩

/-- Claim C3: when `upsert_application` finds a row with the candidate's
(company, role), the row kept under the existing id carries exactly the
candidate's values in every column (status normalized); blank candidate
fields such as empty notes replace whatever was stored. -/
theorem upsert_application_full_overwrite (s : Store) (d : AppData)
    (e : ApplicationRow)
    (h : s.rows.find? (keyMatches d.company d.role) = some e) :
    ∃ r ∈ (upsert_application s d).rows,
      r.id = e.id ∧ r.company = d.company ∧ r.role = d.role ∧
      r.location = d.location ∧ r.status = normalize_status d.status ∧
      r.applied_date = d.applied_date ∧ r.follow_up_date = d.follow_up_date ∧
      r.source = d.source ∧ r.notes = d.notes ∧ r.url = d.url := by
  rw [upsert_eq, h]
  refine ⟨updateRow { d with status := normalize_status d.status } e, ?_, ?_⟩
  · have he : e ∈ s.rows := List.mem_of_find?_eq_some h
    exact List.mem_map.mpr ⟨e, he, by rw [if_pos rfl]⟩
  · exact ⟨rfl, rfl, rfl, rfl, rfl, rfl, rfl, rfl, rfl, rfl⟩

theorem upsert_application_full_overwrite_witness :
    ∃ r ∈ (upsert_application
        ⟨[⟨7, "acme".data, "dev".data, "waterloo".data, "Applied".data,
           "2024-01-01".data, none, "manual".data, "precious notes".data,
           "u".data⟩], 8⟩
        ⟨"acme".data, "dev".data, [], "offer".data, "2024-02-02".data, none,
         "Crawler".data, [], []⟩).rows,
      r.id = 7 ∧ r.company = "acme".data ∧ r.role = "dev".data ∧
      r.location = [] ∧ r.status = normalize_status ("offer".data) ∧
      r.applied_date = "2024-02-02".data ∧ r.follow_up_date = none ∧
      r.source = "Crawler".data ∧ r.notes = [] ∧ r.url = [] :=
  upsert_application_full_overwrite _ _
    ⟨7, "acme".data, "dev".data, "waterloo".data, "Applied".data,
     "2024-01-01".data, none, "manual".data, "precious notes".data, "u".data⟩
    (by decide)

/-- Claim C10: under the primary-key invariant (distinct ids),
`upsert_application` touches at most one row: with no key match it appends
one fresh row and keeps every existing row literally unchanged; with a match
it rewrites exactly the first matching row (every earlier row fails the key
test) and keeps all other rows unchanged. -/
theorem upsert_application_frame (s : Store) (d : AppData)
    (hnd : (s.rows.map (fun r => r.id)).Nodup) :
    (s.rows.find? (keyMatches d.company d.role) = none →
      (upsert_application s d).rows =
        s.rows ++ [rowOfData s.nextId { d with status := normalize_status d.status }]) ∧
    (∀ e, s.rows.find? (keyMatches d.company d.role) = some e →
      ∃ pre post, s.rows = pre ++ e :: post ∧
        (∀ r ∈ pre, keyMatches d.company d.role r = false) ∧
        (upsert_application s d).rows =
          pre ++ updateRow { d with status := normalize_status d.status } e :: post) := by
  constructor
  · intro h
    rw [upsert_eq, h]
  · intro e he
    rcases List.find?_eq_some.mp he with ⟨hpe, pre, post, hsplit, hprev⟩
    refine ⟨pre, post, hsplit, ?_, ?_⟩
    · intro r hr
      simpa using hprev r hr
    · rw [upsert_eq, he]
      show s.rows.map (fun r => if r.id = e.id then
          updateRow { d with status := normalize_status d.status } r else r) = _
      rw [hsplit] at hnd ⊢
      rw [List.map_append, List.map_cons] at hnd
      have hdisj := (List.nodup_append.mp hnd).2.2
      have hpost := (List.nodup_cons.mp (List.nodup_append.mp hnd).2.1).1
      have hpre_ne : ∀ r ∈ pre, r.id ≠ e.id := by
        intro r hr hc
        exact hdisj (hc ▸ List.mem_map_of_mem _ hr) (List.mem_cons_self _ _)
      have hpost_ne : ∀ r ∈ post, r.id ≠ e.id := by
        intro r hr hc
        exact hpost (hc ▸ List.mem_map_of_mem _ hr)
      rw [List.map_append, List.map_cons]
      congr 1
      · conv_rhs => rw [show pre = pre.map id from (List.map_id pre).symm]
        apply List.map_congr_left
        intro r hr
        rw [if_neg (hpre_ne r hr)]
        rfl
      · rw [if_pos rfl]
        congr 1
        conv_rhs => rw [show post = post.map id from (List.map_id post).symm]
        apply List.map_congr_left
        intro r hr
        rw [if_neg (hpost_ne r hr)]
        rfl

theorem upsert_application_frame_witness :
    (upsert_application
        ⟨[⟨1, "zeta".data, "qa".data, [], "Applied".data, "2024-01-01".data,
           none, [], [], []⟩], 2⟩
        ⟨"acme".data, "dev".data, [], "applied".data, "2024-03-03".data,
         none, [], [], []⟩).rows =
      (⟨[⟨1, "zeta".data, "qa".data, [], "Applied".data, "2024-01-01".data,
          none, [], [], []⟩], 2⟩ : Store).rows ++
        [rowOfData 2
          { company := "acme".data, role := "dev".data, location := [],
            status := normalize_status ("applied".data),
            applied_date := "2024-03-03".data, follow_up_date := none,
            source := [], notes := [], url := [] }] :=
  (upsert_application_frame _ _ (by decide)).1 (by decide)

theorem form_to_application_company (today : Str) (f : FormData) :
    (form_to_application today f).company = strip f.company := rfl

theorem form_to_application_role (today : Str) (f : FormData) :
    (form_to_application today f).role = strip f.role := rfl

theorem rowOfData_company (i : Nat) (d : AppData) :
    (rowOfData i d).company = d.company := rfl

theorem rowOfData_role (i : Nat) (d : AppData) : (rowOfData i d).role = d.role := rfl

/-- Claim C7: the manual-add route always INSERTs: with a row of the same
(company, role) already stored, submitting the form adds a second row with
that key (the first row is untouched), so the store can hold duplicates. -/
theorem add_application_allows_duplicates (s : Store) (today : Str) (f : FormData)
    (r0 : ApplicationRow) (hmem : r0 ∈ s.rows)
    (hc : r0.company = strip f.company) (hr : r0.role = strip f.role) :
    (add_application s today f).rows.length = s.rows.length + 1 ∧
    r0 ∈ (add_application s today f).rows ∧
    rowOfData s.nextId (form_to_application today f) ∈ (add_application s today f).rows ∧
    2 ≤ ((add_application s today f).rows.filter
        (fun r => r.company == strip f.company && r.role == strip f.role)).length := by
  refine ⟨by simp [add_application], List.mem_append_left _ hmem,
    List.mem_append_right _ (List.mem_singleton.mpr rfl), ?_⟩
  show 2 ≤ ((s.rows ++ [rowOfData s.nextId (form_to_application today f)]).filter
      (fun r => r.company == strip f.company && r.role == strip f.role)).length
  rw [List.filter_append, List.length_append]
  have h1 : 1 ≤ (s.rows.filter
      (fun r => r.company == strip f.company && r.role == strip f.role)).length := by
    have hmem2 : r0 ∈ s.rows.filter
        (fun r => r.company == strip f.company && r.role == strip f.role) :=
      List.mem_filter.mpr ⟨hmem, by simp [hc, hr]⟩
    exact List.length_pos.mpr (List.ne_nil_of_mem hmem2)
  have h2 : ([rowOfData s.nextId (form_to_application today f)].filter
      (fun r => r.company == strip f.company && r.role == strip f.role)).length = 1 := by
    have hq : ((rowOfData s.nextId (form_to_application today f)).company ==
          strip f.company &&
        (rowOfData s.nextId (form_to_application today f)).role == strip f.role) =
          true := by
      simp [rowOfData_company, rowOfData_role, form_to_application_company,
        form_to_application_role]
    rw [List.filter_singleton, hq]
    rfl
  omega

theorem add_application_allows_duplicates_witness :
    (add_application
        ⟨[⟨3, "acme".data, "dev".data, [], "Applied".data, "2024-01-01".data,
           none, [], "note".data, []⟩], 4⟩
        "2024-05-05".data
        ⟨"acme".data, "dev".data, [], "applied".data, [], [], [], [], []⟩).rows.length =
      (⟨[⟨3, "acme".data, "dev".data, [], "Applied".data, "2024-01-01".data,
          none, [], "note".data, []⟩], 4⟩ : Store).rows.length + 1 ∧
    (⟨3, "acme".data, "dev".data, [], "Applied".data, "2024-01-01".data,
      none, [], "note".data, []⟩ : ApplicationRow) ∈
      (add_application
        ⟨[⟨3, "acme".data, "dev".data, [], "Applied".data, "2024-01-01".data,
           none, [], "note".data, []⟩], 4⟩
        "2024-05-05".data
        ⟨"acme".data, "dev".data, [], "applied".data, [], [], [], [], []⟩).rows ∧
    rowOfData 4 (form_to_application ("2024-05-05".data)
        ⟨"acme".data, "dev".data, [], "applied".data, [], [], [], [], []⟩) ∈
      (add_application
        ⟨[⟨3, "acme".data, "dev".data, [], "Applied".data, "2024-01-01".data,
           none, [], "note".data, []⟩], 4⟩
        "2024-05-05".data
        ⟨"acme".data, "dev".data, [], "applied".data, [], [], [], [], []⟩).rows ∧
    2 ≤ ((add_application
        ⟨[⟨3, "acme".data, "dev".data, [], "Applied".data, "2024-01-01".data,
           none, [], "note".data, []⟩], 4⟩
        "2024-05-05".data
        ⟨"acme".data, "dev".data, [], "applied".data, [], [], [], [], []⟩).rows.filter
        (fun r => r.company ==
            strip ("acme".data : Str) && r.role == strip ("dev".data : Str))).length :=
  add_application_allows_duplicates _ _ _ _ (List.mem_cons_self _ _)
    (by decide) (by decide)

theorem crawl_loop_aux (today source_label target_url : Str) (rows : List RawRow) :
    ∀ (s : Store) (n : Nat),
      rows.foldl
        (fun acc row =>
          if rowPresent row then
            (upsert_application acc.1 (candidateOf today source_label target_url row),
             acc.2 + 1)
          else acc)
        (s, n) =
      ((rows.filter rowPresent).foldl
        (fun st row => upsert_application st (candidateOf today source_label target_url row))
        s,
       n + (rows.filter rowPresent).length) := by
  induction rows with
  | nil =>
    intro s n
    simp
  | cons row rest ih =>
    intro s n
    by_cases hp : rowPresent row = true
    · rw [List.foldl_cons, if_pos hp, ih, List.filter_cons_of_pos hp,
        List.foldl_cons, List.length_cons]
      congr 1
      omega
    · rw [List.foldl_cons, if_neg hp, ih,
        List.filter_cons_of_neg (by simpa using hp)]

/-- Claim C6: rows whose company, role or raw status text is empty are
dropped before the reconciler is called, and the count the crawler returns
(and `main` prints) is exactly the number of rows that passed the presence
check and were upserted in order. -/
theorem crawl_and_sync_spec (s : Store) (rows : List RawRow)
    (today source_label target_url : Str) :
    (crawl_and_sync s rows today source_label target_url).2 =
      (rows.filter rowPresent).length ∧
    (crawl_and_sync s rows today source_label target_url).1 =
      (rows.filter rowPresent).foldl
        (fun st row => upsert_application st (candidateOf today source_label target_url row))
        s := by
  rw [crawl_and_sync, crawl_loop_aux]
  exact ⟨by omega, rfl⟩

theorem count_bridge {α : Type} {i1 i2 : BEq α} (h1 : @LawfulBEq α i1)
    (h2 : @LawfulBEq α i2) (l : List α) (a : α) :
    @List.count α i1 a l = @List.count α i2 a l := by
  induction l with
  | nil => rfl
  | cons x xs ih =>
    rw [@List.count_cons α i1, @List.count_cons α i2, ih]
    by_cases h : x = a
    · subst h
      rw [@beq_self_eq_true α i1 h1, @beq_self_eq_true α i2 h2]
    · rw [(@beq_eq_false_iff_ne α i1 h1 x a).mpr h,
        (@beq_eq_false_iff_ne α i2 h2 x a).mpr h]

theorem count_status_filter (s : Store) (st : Str) :
    (s.rows.map (fun r => r.status)).count st =
      (s.rows.filter (fun r => r.status == st)).length := by
  rw [List.count, List.countP_map, List.countP_eq_length_filter]
  rfl

/-- Claim C8: the status breakdown has one pair per distinct stored status,
each count is exactly the number of rows with that status, the counts sum to
the store size, and the pairs are ordered by count descending. -/
theorem fetch_stage_breakdown_spec (s : Store) :
    ((fetch_stage_breakdown s).map Prod.fst).Nodup ∧
    (∀ st : Str, st ∈ s.rows.map (fun r => r.status) ↔
      ∃ c, (st, c) ∈ fetch_stage_breakdown s) ∧
    (∀ p ∈ fetch_stage_breakdown s,
      p.2 = (s.rows.filter (fun r => r.status == p.1)).length) ∧
    ((fetch_stage_breakdown s).map Prod.snd).sum = s.rows.length ∧
    (fetch_stage_breakdown s).Pairwise (fun a b => b.2 ≤ a.2) := by
  have hperm : List.Perm (fetch_stage_breakdown s)
      ((s.rows.map (fun r => r.status)).dedup.map
        (fun st => (st, (s.rows.map (fun r => r.status)).count st))) := by
    simp only [fetch_stage_breakdown]
    exact List.mergeSort_perm _ _
  refine ⟨?_, ?_, ?_, ?_, ?_⟩
  · have hp2 := (hperm.map Prod.fst).nodup_iff
    apply hp2.mpr
    rw [List.map_map]
    have hid : (List.map
        (Prod.fst ∘ fun st => (st, (s.rows.map (fun r => r.status)).count st))
        (s.rows.map (fun r => r.status)).dedup) =
        (s.rows.map (fun r => r.status)).dedup := by
      simp [Function.comp_def]
    rw [hid]
    exact List.nodup_dedup _
  · intro st
    constructor
    · intro hst
      refine ⟨(s.rows.map (fun r => r.status)).count st, ?_⟩
      apply hperm.mem_iff.mpr
      exact List.mem_map.mpr ⟨st, List.mem_dedup.mpr hst, rfl⟩
    · rintro ⟨c, hc⟩
      have := hperm.mem_iff.mp hc
      rcases List.mem_map.mp this with ⟨a, ha, heq⟩
      rw [Prod.mk.injEq] at heq
      rw [← heq.1]
      exact List.mem_dedup.mp ha
  · intro p hp
    have := hperm.mem_iff.mp hp
    rcases List.mem_map.mp this with ⟨a, ha, heq⟩
    rw [← heq, ← count_status_filter]
  · rw [(hperm.map Prod.snd).sum_eq, List.map_map]
    have hs := List.sum_map_count_dedup_eq_length (s.rows.map (fun r => r.status))
    calc ((s.rows.map (fun r => r.status)).dedup.map
          (Prod.snd ∘ fun st => (st, (s.rows.map (fun r => r.status)).count st))).sum
        = ((s.rows.map (fun r => r.status)).dedup.map
            (fun st => (s.rows.map (fun r => r.status)).count st)).sum := rfl
      _ = ((s.rows.map (fun r => r.status)).dedup.map
            (fun st => @List.count Str instBEqOfDecidableEq st
              (s.rows.map (fun r => r.status)))).sum := by
            congr 1
            apply List.map_congr_left
            intro a ha
            exact count_bridge inferInstance inferInstance _ a
      _ = (s.rows.map (fun r => r.status)).length := hs
      _ = s.rows.length := List.length_map _ _
  · have hsorted := @List.sorted_mergeSort (Str × Nat)
      (fun a b => decide (b.2 ≤ a.2))
      (fun a b c hab hbc => by
        simp only [decide_eq_true_eq] at hab hbc ⊢
        omega)
      (fun a b => by
        simp only [Bool.or_eq_true, decide_eq_true_eq]
        omega)
      ((s.rows.map (fun r => r.status)).dedup.map
        (fun st => (st, (s.rows.map (fun r => r.status)).count st)))
    have hbd : fetch_stage_breakdown s =
        List.mergeSort
          ((s.rows.map (fun r => r.status)).dedup.map
            (fun st => (st, (s.rows.map (fun r => r.status)).count st)))
          (fun a b => decide (b.2 ≤ a.2)) := by
      simp only [fetch_stage_breakdown]
    rw [hbd]
    exact hsorted.imp (fun h => of_decide_eq_true h)

example : normalize_status ("Position Unfilled".data) = "Rejected".data := by decide
example : normalize_status ("Interview Scheduled - Phone Screen".data) = "Interview".data := by
  decide
example : normalize_status ("Offer Accepted".data) = "Offer".data := by decide
example : normalize_status ("Shortlisted / Alternate Pool".data) = "Ranked".data := by decide
example : normalize_status ("".data) = "Applied".data := by decide
example : normalize_status ("   ".data) = "Applied".data := by decide
example : normalize_status ("some custom label".data) = "Some Custom Label".data := by decide
